import Mathlib

/-!
Verification of the accessibility-heatmap aggregation engine
(`src/core/heatmap.py` and `src/schemas/heatmap.py`).

Modelling conventions:
* numpy float values are modelled exactly by rationals (`ℚ`); the gaussian
  decay kernels, which compute `exp`, are modelled over the reals (`ℝ`).
* a numpy float that may be NaN is modelled by `Option ℚ` with `none` = NaN;
  every IEEE comparison against NaN is `false`.
* a Python exception is modelled by `Except String`.
* `np.empty` output cells that are never written are modelled by `none` in a
  `List (Option ℤ)`.
-/

namespace Goat

/-- Half-open slice `l[i:j]` of a list, numpy/python slicing semantics. -/
def listSlice {α : Type} (l : List α) (i j : ℕ) : List α :=
  (l.drop i).take (j - i)

/-- Consecutive pairs of a boundary list: `[b0,b1,b2] ↦ [(b0,b1),(b1,b2)]`. -/
def boundaryPairs (bs : List ℕ) : List (ℕ × ℕ) :=
  bs.zip bs.tail

/-- The segments of `l` delimited by the boundary list `bs`
(`travel_times[unique_index[i] : unique_index[i+1]]` in the source loops). -/
def segmentsOf {α : Type} (l : List α) (bs : List ℕ) : List (List α) :=
  (boundaryPairs bs).map fun p => listSlice l p.1 p.2

/-- `np.median` of a one-dimensional array: middle element of the sorted data
for odd length, midpoint of the two middle elements for even length.
(The source never applies it to an empty segment; we return `0` there.) -/
def npMedian (l : List ℚ) : ℚ :=
  let s := l.mergeSort (fun a b => decide (a ≤ b))
  let n := l.length
  if n % 2 = 1 then s.getD (n / 2) 0
  else (s.getD (n / 2 - 1) 0 + s.getD (n / 2) 0) / 2

/-- `np.min` of a one-dimensional array (the source never applies it to an
empty segment). -/
def npMin (l : List ℚ) : ℚ :=
  l.foldl min (l.headD 0)

/-- `np.average` of a one-dimensional array. -/
def npAverage (l : List ℚ) : ℚ :=
  l.sum / l.length

/-- `np.unique(keys, return_index=True)` applied to an already `sorted` key
column: the distinct values in ascending order, each paired with the index of
its first occurrence.  On a sorted list the first occurrence of each value is
the start of its run, which this scan records.  `k` is the index of the head
of the remaining list, `prev` the previous element (`none` at the start). -/
def npUniqueAux (prev : Option ℤ) (k : ℕ) : List ℤ → List (ℤ × ℕ)
  | [] => []
  | a :: rest =>
    match prev with
    | none => (a, k) :: npUniqueAux (some a) (k + 1) rest
    | some p =>
      if a = p then npUniqueAux (some a) (k + 1) rest
      else (a, k) :: npUniqueAux (some a) (k + 1) rest

/-- `sort_and_unique_by_grid_ids` (heatmap.py lines 12-22): stack the two
columns into a table of rows, sort the rows by the grid-id column
(`argsort` on column 0), and run `np.unique(..., return_index=True)` on the
sorted grid-id column.  Returns `(sorted_table, (unique, unique_indices))`. -/
def sort_and_unique_by_grid_ids (grid_ids : List ℤ) (travel_times : List ℚ) :
    List (ℤ × ℚ) × (List ℤ × List ℕ) :=
  let table := grid_ids.zip travel_times
  let sorted_table := table.mergeSort (fun p q => decide (p.1 ≤ q.1))
  let uniquePairs := npUniqueAux none 0 (sorted_table.map Prod.fst)
  (sorted_table, (uniquePairs.map Prod.fst, uniquePairs.map Prod.snd))

/-- `medians` (heatmap.py lines 25-49): `None` on empty input, otherwise the
per-segment `np.median` with segments delimited by the unique indices plus the
total length as final boundary. -/
def medians (travel_times : List ℚ) (uniqueIdx : List ℕ) : Option (List ℚ) :=
  if travel_times.isEmpty then none
  else
    let unique_index := uniqueIdx ++ [travel_times.length]
    some ((segmentsOf travel_times unique_index).map npMedian)

/-- `mins` (heatmap.py lines 52-76): per-segment `np.min`. -/
def mins (travel_times : List ℚ) (uniqueIdx : List ℕ) : Option (List ℚ) :=
  if travel_times.isEmpty then none
  else
    let unique_index := uniqueIdx ++ [travel_times.length]
    some ((segmentsOf travel_times unique_index).map npMin)

/-- `counts` (heatmap.py lines 79-102): per-segment sample count
(stored as floats in the source; the values are the segment lengths). -/
def counts (travel_times : List ℚ) (uniqueIdx : List ℕ) : Option (List ℚ) :=
  if travel_times.isEmpty then none
  else
    let unique_index := uniqueIdx ++ [travel_times.length]
    some ((segmentsOf travel_times unique_index).map fun seg => (seg.length : ℚ))

/-- `averages` (heatmap.py lines 105-129): per-segment `np.average`. -/
def averages (travel_times : List ℚ) (uniqueIdx : List ℕ) : Option (List ℚ) :=
  if travel_times.isEmpty then none
  else
    let unique_index := uniqueIdx ++ [travel_times.length]
    some ((segmentsOf travel_times unique_index).map npAverage)

/-- `combined_modified_gaussian_per_grid` (heatmap.py lines 132-158): `None`
on empty input; otherwise, per segment, the running sum over samples `t` of:
nothing when `t > cutoff`; `1` when `t <= static_traveltime`; otherwise
`exp(-(t - static_traveltime)^2 / sensitivity_)`, with
`sensitivity_ = sensitivity / (60 * 60)`. -/
noncomputable def combined_modified_gaussian_per_grid (travel_times : List ℝ)
    (uniqueIdx : List ℕ) (sensitivity cutoff static_traveltime : ℝ) :
    Option (List ℝ) :=
  if travel_times.isEmpty then none
  else
    let sensitivity_ := sensitivity / (60 * 60)
    let unique_index := uniqueIdx ++ [travel_times.length]
    some ((segmentsOf travel_times unique_index).map fun seg =>
      seg.foldl (fun sum t =>
        if t > cutoff then sum
        else if t ≤ static_traveltime then sum + 1
        else sum + Real.exp (-((t - static_traveltime) * (t - static_traveltime)) /
          sensitivity_)) 0)

/-- `modified_gaussian_per_grid` (heatmap.py lines 161-183): `None` on empty
input; otherwise, per segment, the running sum over samples `t` of: nothing
when `t > cutoff`; otherwise `exp(-t^2 / sensitivity_)`, with
`sensitivity_ = sensitivity / (60 * 60)`. -/
noncomputable def modified_gaussian_per_grid (travel_times : List ℝ)
    (uniqueIdx : List ℕ) (sensitivity cutoff : ℝ) : Option (List ℝ) :=
  if travel_times.isEmpty then none
  else
    let sensitivity_ := sensitivity / (60 * 60)
    let unique_index := uniqueIdx ++ [travel_times.length]
    some ((segmentsOf travel_times unique_index).map fun seg =>
      seg.foldl (fun sum t =>
        if t > cutoff then sum
        else sum + Real.exp (-(t * t) / sensitivity_)) 0)

/-- Per-sample contribution of the modified-gaussian model as the spec words
it: `exp(-t^2 / s)` for `t <= cutoff`, `0` for `t > cutoff`. -/
noncomputable def gaussianContribSpec (s cutoff t : ℝ) : ℝ :=
  if t ≤ cutoff then Real.exp (-(t * t) / s) else 0

/-- Per-sample contribution of the combined modified-gaussian model as the
spec words it: `0` if `t > cutoff`, `1` if `t <= static_traveltime`, else
`exp(-(t - static_traveltime)^2 / s)`. -/
noncomputable def combinedContribSpec (s cutoff static_traveltime t : ℝ) : ℝ :=
  if t > cutoff then 0
  else if t ≤ static_traveltime then 1
  else Real.exp (-((t - static_traveltime) * (t - static_traveltime)) / s)

/-- A numpy float value that may be NaN: `none` is NaN. -/
abbrev NpVal := Option ℚ

/-- `v > c` with IEEE semantics: comparisons against NaN are false. -/
def vGt (v : NpVal) (c : ℚ) : Bool :=
  match v with
  | none => false
  | some x => decide (c < x)

/-- `v < c` with IEEE semantics. -/
def vLt (v : NpVal) (c : ℚ) : Bool :=
  match v with
  | none => false
  | some x => decide (x < c)

/-- `v >= c` with IEEE semantics. -/
def vGe (v : NpVal) (c : ℚ) : Bool :=
  match v with
  | none => false
  | some x => decide (c ≤ x)

/-- `v == c` with IEEE semantics. -/
def vEq (v : NpVal) (c : ℚ) : Bool :=
  match v with
  | none => false
  | some x => decide (x = c)

/-- `np.isnan(v)`. -/
def vIsNaN (v : NpVal) : Bool :=
  v.isNone

/-- The positively valued entries `a[a > 0]` of the score array (NaN entries
fail the comparison and are excluded, as in numpy). -/
def positivesOf (a : List NpVal) : List ℚ :=
  (a.filter fun v => vGt v 0).filterMap id

/-- The positive subset in ascending order (`np.quantile` interpolates over
the order statistics of its data). -/
def sortedPositives (a : List NpVal) : List ℚ :=
  (positivesOf a).mergeSort fun x y => decide (x ≤ y)

/-- `np.quantile(data, f)` with the default linear interpolation, evaluated
on the sorted data: with `n = len(data)` and `h = f * (n - 1)`, interpolate
linearly between the elements at positions `floor(h)` and
`min(floor(h) + 1, n - 1)`. -/
def npQuantile1 (sorted : List ℚ) (f : ℚ) : ℚ :=
  let n := sorted.length
  let h := f * ((n : ℚ) - 1)
  let i := ⌊h⌋₊
  let lo := sorted.getD i 0
  let hi := sorted.getD (min (i + 1) (n - 1)) 0
  lo + (h - (i : ℚ)) * (hi - lo)

/-- Binary length of a natural number (`bitLen 5 = 3`), via a structurally
decreasing fuel argument. -/
def bitLenAux : ℕ → ℕ → ℕ
  | 0, _ => 0
  | fuel + 1, n => if n = 0 then 0 else bitLenAux fuel (n / 2) + 1

/-- Binary length of a natural number. -/
def bitLen (n : ℕ) : ℕ := bitLenAux n n

/-- Round the positive rational `a / b` to the nearest IEEE binary64 value:
round to nearest, ties to even, 53-bit significand (the unbounded exponent is
harmless here, every value involved is in the normal range).  Returns the
pair `(m, e)` denoting `m * 2^e` with `2^52 ≤ m < 2^53`. -/
def roundRat (a b : ℕ) : ℕ × ℤ :=
  let t : ℤ := 53 + (bitLen b : ℤ) - (bitLen a : ℤ)
  let a' := a * 2 ^ t.toNat
  let b' := b * 2 ^ (-t).toNat
  let q := a' / b'
  let r := a' % b'
  if q < 2 ^ 53 then
    let m := if 2 * r < b' then q
      else if b' < 2 * r then q + 1
      else if q % 2 = 0 then q else q + 1
    if m = 2 ^ 53 then (2 ^ 52, 1 - t) else (m, -t)
  else
    let m0 := q / 2
    let m := if q % 2 = 0 then m0
      else if 0 < r then m0 + 1
      else if m0 % 2 = 0 then m0 else m0 + 1
    if m = 2 ^ 53 then (2 ^ 52, 2 - t) else (m, 1 - t)

/-- Number of elements `np.arange(1/NQ, 1, 1/NQ)` produces.  numpy computes
the length as `ceil((stop - start) / step)` in binary64 arithmetic: with
`d = fl(1/NQ)` the count is `ceil(fl(fl(1 - d) / d))`, each operation
correctly rounded.  This is `NQ - 1` for most class counts (in particular
for the default `NQ = 5`), but `NQ` for `NQ = 3, 6, 7, …`, where the last
breakpoint fraction lands at `1.0` — the divergence that leaves a band of
positive scores unwritten in `quantile_classify`. -/
def npArangeCount (NQ : ℕ) : ℕ :=
  if NQ = 0 then 0
  else
    let d := roundRat 1 NQ
    let den := 2 ^ (-(d.2)).toNat
    let diffNum := den - d.1
    if diffNum = 0 then 0
    else
      let diff := roundRat diffNum den
      let e : ℤ := diff.2 - d.2
      let qa := diff.1 * 2 ^ e.toNat
      let qb := d.1 * 2 ^ (-e).toNat
      let quot := roundRat qa qb
      if 0 ≤ quot.2 then quot.1 * 2 ^ quot.2.toNat
      else (quot.1 + 2 ^ (-quot.2).toNat - 1) / 2 ^ (-quot.2).toNat

/-- `np.arange(1/NQ, 1, 1/NQ)`: the element count follows the binary64
computation (`npArangeCount`); the element values, like every other float in
this development, are idealized as exact rationals `k / NQ` (for the counts
that overshoot, the final fraction is `NQ / NQ = 1`, matching the `≈ 1.0`
breakpoint numpy produces there). -/
def qList (NQ : ℕ) : List ℚ :=
  (List.range (npArangeCount NQ)).map fun i => ((i + 1 : ℕ) : ℚ) / (NQ : ℚ)

/-- `quantiles = np.quantile(a[a_gt_0], q)` of the source. -/
def quantilesOf (a : List NpVal) (NQ : ℕ) : List ℚ :=
  (qList NQ).map (npQuantile1 (sortedPositives a))

/-- One vectorized masked assignment `out[np.where(mask(a))] = c`: positions
whose value in `a` satisfies `mask` are overwritten with `c`. -/
def maskWrite (a : List NpVal) (out : List (Option ℤ)) (mask : NpVal → Bool)
    (c : ℤ) : List (Option ℤ) :=
  List.zipWith (fun v o => if mask v then some c else o) a out

/-- `quantile_classify` (heatmap.py lines 186-219).  The output array is
created by `np.empty` and filled by masked assignments; a cell that no mask
ever covers keeps its uninitialized contents, modelled by `none`.  The
breakpoint fractions come from `qList` (binary64-faithful count, exact
rational values); for `NQ = 0` the source raises `ZeroDivisionError` at
`1/NQ`, and for `NQ = 1` the breakpoint array is empty and `quantiles[0]`
raises `IndexError`. -/
def quantile_classify (a : List NpVal) (NQ : ℕ) : Except String (List (Option ℤ)) :=
  if a.isEmpty then .ok []
  else if (a.filter fun v => vGt v 0).isEmpty then
    .ok (List.replicate a.length (some 0))
  else if NQ = 0 then .error "ZeroDivisionError"
  else
    let quantiles := quantilesOf a NQ
    if quantiles.isEmpty then .error "IndexError"
    else
      let out0 : List (Option ℤ) := List.replicate a.length none
      let out1 := maskWrite a out0 (fun v => vEq v 0) 0
      let out2 := maskWrite a out1
        (fun v => vGt v 0 && vLt v (quantiles.headD 0)) 1
      let out3 := maskWrite a out2 (fun v => vGe v (quantiles.getLastD 0)) (NQ : ℤ)
      let out4 := (List.range (NQ - 2)).foldl (fun out i =>
        maskWrite a out
          (fun v => vGe v (quantiles.getD i 0) && vLt v (quantiles.getD (i + 1) 0))
          ((i : ℤ) + 2)) out3
      .ok (maskWrite a out4 (fun v => vIsNaN v) 0)

/-- The class a single value receives from the masked-assignment sequence of
`quantile_classify` (the last applicable write wins; `none` if no mask ever
covers the value). -/
def pointClass (quantiles : List ℚ) (NQ : ℕ) (v : NpVal) : Option ℤ :=
  let o1 : Option ℤ := if vEq v 0 then some 0 else none
  let o2 := if vGt v 0 && vLt v (quantiles.headD 0) then some 1 else o1
  let o3 := if vGe v (quantiles.getLastD 0) then some (NQ : ℤ) else o2
  let o4 := (List.range (NQ - 2)).foldl (fun o i =>
    if vGe v (quantiles.getD i 0) && vLt v (quantiles.getD (i + 1) 0)
    then some ((i : ℤ) + 2) else o) o3
  if vIsNaN v then some 0 else o4

/-- `HeatmapType` (schemas/heatmap.py lines 40-45). -/
inductive HeatmapType where
  | modified_gaussian
  | combined_cumulative_modified_gaussian
  | connectivity
  | cumulative
  | closest_average
deriving DecidableEq

/-- The `.value` string of each heatmap type. -/
def HeatmapType.value : HeatmapType → String
  | .modified_gaussian => "modified_gaussian"
  | .combined_cumulative_modified_gaussian =>
      "combined_cumulative_modified_gaussian"
  | .connectivity => "connectivity"
  | .cumulative => "cumulative"
  | .closest_average => "closest_average"

/-- One per-category entry of the raw `heatmap_config` dict: each field is
present or absent; pydantic coerces present values to `int`. -/
structure CategoryConfig where
  weight : Option ℤ
  sensitivity : Option ℤ
  max_traveltime : Option ℤ
  static_traveltime : Option ℤ
  max_count : Option ℤ
deriving DecidableEq

/-- `HeatmapConfigGravity` (schemas/heatmap.py lines 75-77): pydantic requires
`max_traveltime` and `weight` (from `HeatmapBase`) and `sensitivity`; the
fields carry no value constraints. -/
def HeatmapConfigGravity_parse (c : CategoryConfig) : Bool :=
  c.max_traveltime.isSome && c.weight.isSome && c.sensitivity.isSome

/-- `HeatmapConfigCombinedGravity` (lines 79-80): gravity fields plus
`static_traveltime`. -/
def HeatmapConfigCombinedGravity_parse (c : CategoryConfig) : Bool :=
  HeatmapConfigGravity_parse c && c.static_traveltime.isSome

/-- `HeatmapClosestAverage` (lines 83-84): base fields plus `max_count`. -/
def HeatmapClosestAverage_parse (c : CategoryConfig) : Bool :=
  c.max_traveltime.isSome && c.weight.isSome && c.max_count.isSome

/-- `HeatmapConfigConnectivity` (lines 87-88): optional `max_traveltime`
with `le=25`. -/
def HeatmapConfigConnectivity_parse (mt : Option ℤ) : Bool :=
  match mt with
  | none => true
  | some v => decide (v ≤ 25)

/-- The raw `heatmap_config` dict: per-category entries, plus the top-level
`max_traveltime` key read when the type is connectivity. -/
structure HeatmapConfigRaw where
  categories : List (String × CategoryConfig)
  max_traveltime : Option ℤ
deriving DecidableEq

/-- First validator `heatmap_config_schema_connectivity` (schemas/heatmap.py
lines 121-127): passes any non-connectivity config through, otherwise parses
the config as `HeatmapConfigConnectivity`. -/
def heatmap_config_schema_connectivity (t : HeatmapType)
    (cfg : HeatmapConfigRaw) : Except String Unit :=
  if t ≠ HeatmapType.connectivity then .ok ()
  else if HeatmapConfigConnectivity_parse cfg.max_traveltime then .ok ()
  else .error "validation error for HeatmapConfigConnectivity"

/-- The `validator_classes` dispatch dict (schemas/heatmap.py lines 138-142):
only three of the five heatmap types have a validator class. -/
def validator_classes (t : HeatmapType) : Option (CategoryConfig → Bool) :=
  match t with
  | .modified_gaussian => some HeatmapConfigGravity_parse
  | .combined_cumulative_modified_gaussian =>
      some HeatmapConfigCombinedGravity_parse
  | .closest_average => some HeatmapClosestAverage_parse
  | _ => none

/-- Second validator `heatmap_config_schema` (schemas/heatmap.py lines
129-152): skipped for connectivity; otherwise looks up the validator class
for the heatmap type — raising for a type without one — and validates every
category entry against it. -/
def heatmap_config_schema (t : HeatmapType) (cfg : HeatmapConfigRaw) :
    Except String Unit :=
  if t = HeatmapType.connectivity then .ok ()
  else
    match validator_classes t with
    | none => .error ("Validation for type " ++ t.value ++ " not found.")
    | some vc =>
      if cfg.categories.all fun p => vc p.2 then .ok ()
      else .error "validation error"

/-- The two `heatmap_config` validators, run in declaration order as pydantic
does. -/
def validate_heatmap_config (t : HeatmapType) (cfg : HeatmapConfigRaw) :
    Except String Unit :=
  match heatmap_config_schema_connectivity t cfg with
  | .error e => .error e
  | .ok _ => heatmap_config_schema t cfg

/-- An entry of one of the Python lists handed to the cache: a number (grid
ids, travel times, tile provenance) or a string. -/
inductive NpEntry where
  | num (z : ℤ)
  | str (s : String)
deriving DecidableEq

/-- A column as stored by `np.savez_compressed`, tagged with the dtype family
numpy chose: `object` when the first element is a string, numeric otherwise. -/
inductive TypedColumn where
  | obj (vals : List NpEntry)
  | numeric (vals : List NpEntry)
deriving DecidableEq

/-- The `np.array` conversion of `save_traveltime_matrix` (lines 243-248):
inspects `traveltimeobjs[key][0]` — an `IndexError` on an empty column — and
tags the column as `object` exactly when that first element is a string. -/
def to_np_array (col : List NpEntry) : Except String TypedColumn :=
  match col with
  | [] => .error "IndexError"
  | v :: _ =>
    match v with
    | .str _ => .ok (.obj col)
    | .num _ => .ok (.numeric col)

/-- The conversion loop over all columns of `traveltimeobjs`. -/
def to_np_arrays :
    List (String × List NpEntry) → Except String (List (String × TypedColumn))
  | [] => .ok []
  | p :: rest =>
    match to_np_array p.2 with
    | .error e => .error e
    | .ok c =>
      match to_np_arrays rest with
      | .error e => .error e
      | .ok cs => .ok ((p.1, c) :: cs)

/-- The file-system state the cache mutates: the directories that exist and
a map from file path to stored columns. -/
structure CacheFS where
  dirs : List String
  files : String → Option (List (String × TypedColumn))

/-- `os.path.join` on the relative POSIX components used here. -/
def os_path_join (a b : String) : String := a ++ "/" ++ b

/-- Modelled from the spec: `delete_file` (imported from src/utils.py, which
is not among the sources) removes any prior file at the given path — "store
first removes any prior file at the same key". -/
def delete_file (files : String → Option (List (String × TypedColumn)))
    (path : String) : String → Option (List (String × TypedColumn)) :=
  fun p => if p = path then none else files p

/-- `save_traveltime_matrix` (core/heatmap.py lines 240-266).  The
collaborators outside the sources are modelled from the spec: the isochrone
DTO supplies the `mode` and `profile` strings of the storage key and
`settings.TRAVELTIME_MATRICES_PATH` is `base_path`, the key being realized as
the path base_path/mode/profile/bulk_id.npz.  The function converts every
column to a numpy array, creates the directory if missing, deletes any prior
file at the target path and writes the new file there. -/
def save_traveltime_matrix (bulk_id : ℤ)
    (traveltimeobjs : List (String × List NpEntry))
    (mode profile base_path : String) (fs : CacheFS) : Except String CacheFS :=
  match to_np_arrays traveltimeobjs with
  | .error e => .error e
  | .ok arrays =>
    let file_name := toString bulk_id ++ ".npz"
    let directory := os_path_join (os_path_join base_path mode) profile
    let dirs' := if directory ∈ fs.dirs then fs.dirs else directory :: fs.dirs
    let file_dir := os_path_join directory file_name
    let files' := delete_file fs.files file_dir
    .ok ⟨dirs', fun p => if p = file_dir then some arrays else files' p⟩

/-! Helper lemmas about the unique-index scan and segment slicing. -/

lemma npUniqueAux_snd_ge (l : List ℤ) : ∀ (prev : Option ℤ) (k : ℕ) (x : ℤ × ℕ),
    x ∈ npUniqueAux prev k l → k ≤ x.2 := by
  induction l with
  | nil => intro prev k x hx; simp [npUniqueAux] at hx
  | cons a rest ih =>
    intro prev k x hx
    match prev with
    | none =>
      rcases List.mem_cons.mp hx with h | h
      · simp [h]
      · exact le_trans (Nat.le_succ k) (ih (some a) (k + 1) x h)
    | some p =>
      by_cases hap : a = p
      · simp only [npUniqueAux, if_pos hap] at hx
        exact le_trans (Nat.le_succ k) (ih (some a) (k + 1) x hx)
      · simp only [npUniqueAux, if_neg hap] at hx
        rcases List.mem_cons.mp hx with h | h
        · simp [h]
        · exact le_trans (Nat.le_succ k) (ih (some a) (k + 1) x h)

lemma npUniqueAux_chain (l : List ℤ) : ∀ (prev : Option ℤ) (k : ℕ),
    List.Chain' (· < ·) (((npUniqueAux prev k l).map Prod.snd) ++ [k + l.length]) := by
  induction l with
  | nil => intro prev k; simp [npUniqueAux]
  | cons a rest ih =>
    intro prev k
    have hlen : k + (a :: rest).length = (k + 1) + rest.length := by
      simp [List.length_cons]; omega
    have hcons : List.Chain' (· < ·)
        (((a, k) :: npUniqueAux (some a) (k + 1) rest).map Prod.snd ++
          [k + (a :: rest).length]) := by
      rw [hlen]
      simp only [List.map_cons, List.cons_append]
      refine List.chain'_cons'.mpr ⟨?_, ih (some a) (k + 1)⟩
      intro y hy
      cases hr : npUniqueAux (some a) (k + 1) rest with
      | nil =>
        rw [hr] at hy
        simp only [List.map_nil, List.nil_append, List.head?_cons,
          Option.mem_def, Option.some.injEq] at hy
        omega
      | cons x xs =>
        rw [hr] at hy
        simp only [List.map_cons, List.cons_append, List.head?_cons,
          Option.mem_def, Option.some.injEq] at hy
        have hx : x ∈ npUniqueAux (some a) (k + 1) rest := by
          rw [hr]; exact List.mem_cons_self x xs
        have := npUniqueAux_snd_ge rest (some a) (k + 1) x hx
        omega
    match prev with
    | none => exact hcons
    | some p =>
      by_cases hap : a = p
      · simp only [npUniqueAux, if_pos hap]
        rw [hlen]
        exact ih (some a) (k + 1)
      · simpa only [npUniqueAux, if_neg hap] using hcons

lemma npUniqueAux_head (l : List ℤ) (k : ℕ) (h : l ≠ []) :
    ((npUniqueAux none k l).map Prod.snd).head? = some k := by
  cases l with
  | nil => exact absurd rfl h
  | cons a rest => simp [npUniqueAux]

/-- Joining the consecutive slices delimited by `start :: bs` recovers
`l.drop start`, provided the boundaries are monotone and end at `l.length`. -/
lemma join_segments {α : Type} (l : List α) : ∀ (bs : List ℕ) (start : ℕ),
    List.Chain' (· ≤ ·) (start :: bs) →
    (start :: bs).getLast? = some l.length →
    (segmentsOf l (start :: bs)).flatten = l.drop start := by
  intro bs
  induction bs with
  | nil =>
    intro start _ hlast
    simp only [List.getLast?_singleton, Option.some.injEq] at hlast
    simp [segmentsOf, boundaryPairs, hlast, List.drop_eq_nil_of_le (le_refl _)]
  | cons b bs' ih =>
    intro start hchain hlast
    have hsb : start ≤ b := (List.chain'_cons.mp hchain).1
    have hchain' : List.Chain' (· ≤ ·) (b :: bs') := (List.chain'_cons.mp hchain).2
    have hlast' : (b :: bs').getLast? = some l.length := by
      rwa [List.getLast?_cons_cons] at hlast
    have hjoin : (segmentsOf l (b :: bs')).flatten = l.drop b := ih b hchain' hlast'
    have hstep : segmentsOf l (start :: b :: bs') =
        listSlice l start b :: segmentsOf l (b :: bs') := by
      simp [segmentsOf, boundaryPairs]
    rw [hstep, List.flatten_cons, hjoin]
    have hdd : l.drop b = (l.drop start).drop (b - start) := by
      rw [List.drop_drop, Nat.add_sub_cancel' hsb]
    rw [hdd, listSlice, List.take_append_drop]

unseal List.merge List.mergeSort in
/-- C1 counterexample: on `travel_times = [1,...,12]` with segment start
offsets `[0,3,6,9]` the claimed outputs `medians = [2,5,7,10]` and
`mins = [1,4,6,9]` do not hold: the segments are `[1,2,3]`, `[4,5,6]`,
`[7,8,9]`, `[10,11,12]`, whose medians are `[2,5,8,11]` and whose minima are
`[1,4,7,10]`. -/
theorem scenario1_claimed_values_false :
    ¬ (medians [1,2,3,4,5,6,7,8,9,10,11,12] [0,3,6,9] = some [2,5,7,10] ∧
       mins [1,2,3,4,5,6,7,8,9,10,11,12] [0,3,6,9] = some [1,4,6,9] ∧
       counts [1,2,3,4,5,6,7,8,9,10,11,12] [0,3,6,9] = some [3,3,3,3]) := by
  decide

unseal List.merge List.mergeSort in
/-- C1 (amended): for `travel_times = [1,...,12]` with segment start offsets
`[0,3,6,9]` the medians primitive returns `[2,5,8,11]`, the mins primitive
returns `[1,4,7,10]`, and the counts primitive returns `[3,3,3,3]`. -/
theorem scenario1_primitive_values :
    medians [1,2,3,4,5,6,7,8,9,10,11,12] [0,3,6,9] = some [2,5,8,11] ∧
    mins [1,2,3,4,5,6,7,8,9,10,11,12] [0,3,6,9] = some [1,4,7,10] ∧
    counts [1,2,3,4,5,6,7,8,9,10,11,12] [0,3,6,9] = some [3,3,3,3] := by
  refine ⟨by decide, by decide, by decide⟩

lemma npUniqueAux_ne_nil (a : ℤ) (rest : List ℤ) (k : ℕ) :
    npUniqueAux none k (a :: rest) ≠ [] := by
  simp [npUniqueAux]

/-- C5: for every pair of equal-length inputs, the aggregator's outputs
satisfy `len(unique_grid_ids) == len(segment_start_offsets)`; the offsets are
strictly increasing with first element `0` (when the input is nonempty); and
appending the total sample count as a final boundary yields half-open
segments that exactly partition the sorted array, whose length equals the
input length. -/
theorem sort_and_unique_invariants (grid_ids : List ℤ) (travel_times : List ℚ)
    (h : grid_ids.length = travel_times.length) :
    ∀ sorted_table unique_ids segment_start_offsets,
      sort_and_unique_by_grid_ids grid_ids travel_times =
        (sorted_table, (unique_ids, segment_start_offsets)) →
      unique_ids.length = segment_start_offsets.length ∧
      List.Chain' (· < ·) segment_start_offsets ∧
      (grid_ids ≠ [] → segment_start_offsets.head? = some 0) ∧
      List.Chain' (· < ·) (segment_start_offsets ++ [sorted_table.length]) ∧
      (segmentsOf sorted_table
          (segment_start_offsets ++ [sorted_table.length])).flatten = sorted_table ∧
      sorted_table.length = grid_ids.length := by
  intro st u idx heq
  simp only [sort_and_unique_by_grid_ids, Prod.mk.injEq] at heq
  obtain ⟨hst, hu, hidx⟩ := heq
  rw [hst] at hu hidx
  have hstlen : st.length = grid_ids.length := by
    rw [← hst, (List.mergeSort_perm (grid_ids.zip travel_times) _).length_eq,
      List.length_zip, h, min_self, ← h]
  have hkeys : (st.map Prod.fst).length = st.length := List.length_map _ _
  have hchain0 := npUniqueAux_chain (st.map Prod.fst) none 0
  rw [Nat.zero_add, hkeys] at hchain0
  have hboundchain : List.Chain' (· < ·) (idx ++ [st.length]) := by
    rw [← hidx]; exact hchain0
  refine ⟨?_, (List.chain'_append.mp hboundchain).1, ?_, hboundchain, ?_, hstlen⟩
  · rw [← hu, ← hidx, List.length_map, List.length_map]
  · intro hne
    have hkne : st.map Prod.fst ≠ [] := by
      intro hk
      have : st.length = 0 := by rw [← hkeys, hk]; rfl
      rw [hstlen, List.length_eq_zero] at this
      exact hne this
    rw [← hidx]
    exact npUniqueAux_head (st.map Prod.fst) 0 hkne
  · cases hidxc : idx with
    | nil =>
      have hpairsnil : (npUniqueAux none 0 (st.map Prod.fst)).map Prod.snd = [] := by
        rw [hidx, hidxc]
      have hknil : st.map Prod.fst = [] := by
        cases hkc : st.map Prod.fst with
        | nil => rfl
        | cons a rest =>
          exfalso
          apply npUniqueAux_ne_nil a rest 0
          rw [← hkc]
          exact List.map_eq_nil_iff.mp hpairsnil
      have hstnil : st = [] := List.map_eq_nil_iff.mp hknil
      rw [hstnil]
      simp [segmentsOf, boundaryPairs]
    | cons i0 idxt =>
      have hkne : st.map Prod.fst ≠ [] := by
        intro hk
        have hcontra : (npUniqueAux none 0 (st.map Prod.fst)).map Prod.snd =
            i0 :: idxt := by
          rw [hidx, hidxc]
        rw [hk] at hcontra
        simp [npUniqueAux] at hcontra
      have hhead : idx.head? = some 0 := by
        rw [← hidx]
        exact npUniqueAux_head (st.map Prod.fst) 0 hkne
      have hi0 : i0 = 0 := by
        rw [hidxc] at hhead
        simpa using hhead
      have hchainle : List.Chain' (· ≤ ·) (0 :: (idxt ++ [st.length])) := by
        have hb := hboundchain
        rw [hidxc, hi0, List.cons_append] at hb
        exact hb.imp fun a b hab => le_of_lt hab
      have hlast : (0 :: (idxt ++ [st.length])).getLast? = some st.length := by
        rw [← List.cons_append, List.getLast?_append_cons]
        rfl
      have hflat := join_segments st (idxt ++ [st.length]) 0 hchainle hlast
      rw [List.drop_zero] at hflat
      rw [hi0]
      exact hflat

/-- Witness for C5 at the concrete input `grid_ids = [3,1,2]`,
`travel_times = [10,20,30]`. -/
theorem sort_and_unique_invariants_witness :
    ([3, 1, 2] : List ℤ).length = ([10, 20, 30] : List ℚ).length ∧
    (∀ sorted_table unique_ids segment_start_offsets,
      sort_and_unique_by_grid_ids [3, 1, 2] [10, 20, 30] =
        (sorted_table, (unique_ids, segment_start_offsets)) →
      unique_ids.length = segment_start_offsets.length ∧
      List.Chain' (· < ·) segment_start_offsets ∧
      (([3, 1, 2] : List ℤ) ≠ [] → segment_start_offsets.head? = some 0) ∧
      List.Chain' (· < ·) (segment_start_offsets ++ [sorted_table.length]) ∧
      (segmentsOf sorted_table
          (segment_start_offsets ++ [sorted_table.length])).flatten = sorted_table ∧
      sorted_table.length = ([3, 1, 2] : List ℤ).length) :=
  ⟨rfl, sort_and_unique_invariants [3, 1, 2] [10, 20, 30] rfl⟩

lemma foldl_add_eq_sum_map (f : ℝ → ℝ) : ∀ (l : List ℝ) (a : ℝ),
    l.foldl (fun s t => s + f t) a = a + (l.map f).sum := by
  intro l
  induction l with
  | nil => intro a; simp
  | cons t ts ih =>
    intro a
    rw [List.foldl_cons, ih, List.map_cons, List.sum_cons]
    ring

/-- C7: `modified_gaussian_per_grid` computes, for every segment, the
per-sample sum of `exp(-t^2 / s)` over samples with `t <= cutoff`
(`s = sensitivity / 3600`; samples with `t > cutoff` contribute `0`), and on
the single segment `[0, 1, 2]` with `sensitivity = 3600`, `cutoff = 100` the
score is `exp(0) + exp(-1) + exp(-4)`. -/
theorem modified_gaussian_spec_and_scenario2 :
    (∀ (travel_times : List ℝ) (uniqueIdx : List ℕ) (sensitivity cutoff : ℝ),
      travel_times ≠ [] →
      modified_gaussian_per_grid travel_times uniqueIdx sensitivity cutoff =
        some ((segmentsOf travel_times (uniqueIdx ++ [travel_times.length])).map
          fun seg =>
            (seg.map (gaussianContribSpec (sensitivity / (60 * 60)) cutoff)).sum)) ∧
    modified_gaussian_per_grid [0, 1, 2] [0] 3600 100 =
      some [Real.exp 0 + Real.exp (-1) + Real.exp (-4)] := by
  constructor
  · intro travel_times uniqueIdx sensitivity cutoff hne
    rw [modified_gaussian_per_grid, if_neg (by simpa [List.isEmpty_iff] using hne)]
    dsimp only
    congr 1
    apply List.map_congr_left
    intro seg _
    have hbody : (fun (s t : ℝ) => if t > cutoff then s
        else s + Real.exp (-(t * t) / (sensitivity / (60 * 60)))) =
        fun s t => s + gaussianContribSpec (sensitivity / (60 * 60)) cutoff t := by
      funext s t
      by_cases hc : t > cutoff
      · rw [if_pos hc, gaussianContribSpec, if_neg (not_le.mpr hc), add_zero]
      · rw [if_neg hc, gaussianContribSpec, if_pos (not_lt.mp hc)]
    rw [hbody, foldl_add_eq_sum_map, zero_add]
  · rw [modified_gaussian_per_grid]
    norm_num [segmentsOf, boundaryPairs, listSlice]

/-- Witness for the universally quantified part of C7, at the single-sample
segment `[1]`. -/
theorem modified_gaussian_witness :
    ([1] : List ℝ) ≠ [] ∧
    modified_gaussian_per_grid [1] [0] 3600 100 =
      some ((segmentsOf [1] ([0] ++ [([1] : List ℝ).length])).map
        fun seg => (seg.map (gaussianContribSpec ((3600 : ℝ) / (60 * 60)) 100)).sum) :=
  ⟨by simp, modified_gaussian_spec_and_scenario2.1 [1] [0] 3600 100 (by simp)⟩

/-- C6: `combined_modified_gaussian_per_grid` computes, for every segment, the
sum over its samples of `0` if `t > cutoff`, `1` if `t <= static_traveltime`,
else `exp(-(t - static_traveltime)^2 / s)` with `s = sensitivity / 3600`; and
with `static_traveltime = 5`, `cutoff = 20` on the segment `[3, 5, 10, 25]`
the samples `3` and `5` contribute `1` each, `10` contributes `exp(-25/s)`,
and `25` contributes `0`. -/
theorem combined_modified_gaussian_spec_and_scenario3 :
    (∀ (travel_times : List ℝ) (uniqueIdx : List ℕ)
        (sensitivity cutoff static_traveltime : ℝ),
      travel_times ≠ [] →
      combined_modified_gaussian_per_grid travel_times uniqueIdx sensitivity
          cutoff static_traveltime =
        some ((segmentsOf travel_times (uniqueIdx ++ [travel_times.length])).map
          fun seg =>
            (seg.map (combinedContribSpec (sensitivity / (60 * 60)) cutoff
              static_traveltime)).sum)) ∧
    ∀ sensitivity : ℝ,
      combined_modified_gaussian_per_grid [3, 5, 10, 25] [0] sensitivity 20 5 =
        some [1 + 1 + Real.exp (-25 / (sensitivity / (60 * 60)))] := by
  constructor
  · intro travel_times uniqueIdx sensitivity cutoff static_traveltime hne
    rw [combined_modified_gaussian_per_grid,
      if_neg (by simpa [List.isEmpty_iff] using hne)]
    dsimp only
    congr 1
    apply List.map_congr_left
    intro seg _
    have hbody : (fun (s t : ℝ) => if t > cutoff then s
        else if t ≤ static_traveltime then s + 1
        else s + Real.exp (-((t - static_traveltime) * (t - static_traveltime)) /
          (sensitivity / (60 * 60)))) =
        fun s t => s + combinedContribSpec (sensitivity / (60 * 60)) cutoff
          static_traveltime t := by
      funext s t
      by_cases hc : t > cutoff
      · rw [if_pos hc, combinedContribSpec, if_pos hc, add_zero]
      · rw [if_neg hc, combinedContribSpec, if_neg hc]
        by_cases hstat : t ≤ static_traveltime
        · rw [if_pos hstat, if_pos hstat]
        · rw [if_neg hstat, if_neg hstat]
    rw [hbody, foldl_add_eq_sum_map, zero_add]
  · intro sensitivity
    rw [combined_modified_gaussian_per_grid]
    norm_num [segmentsOf, boundaryPairs, listSlice]

/-! Pointwise description of the classifier's masked assignments. -/

lemma maskWrite_map (a : List NpVal) (g : NpVal → Option ℤ) (mask : NpVal → Bool)
    (c : ℤ) :
    maskWrite a (a.map g) mask c = a.map fun v => if mask v then some c else g v := by
  induction a with
  | nil => rfl
  | cons v vs ih =>
    simp only [List.map_cons, maskWrite, List.zipWith_cons_cons] at ih ⊢
    rw [ih]

lemma foldl_maskWrite_map (a : List NpVal) (masks : ℕ → NpVal → Bool)
    (cs : ℕ → ℤ) :
    ∀ (L : List ℕ) (g : NpVal → Option ℤ),
      L.foldl (fun out i => maskWrite a out (masks i) (cs i)) (a.map g) =
        a.map fun v =>
          L.foldl (fun o i => if masks i v then some (cs i) else o) (g v) := by
  intro L
  induction L with
  | nil => intro g; simp
  | cons i L' ih =>
    intro g
    rw [List.foldl_cons, maskWrite_map, ih]
    simp only [List.foldl_cons]

lemma replicate_none_eq_map (a : List NpVal) :
    List.replicate a.length (none : Option ℤ) = a.map fun _ => none := by
  induction a with
  | nil => rfl
  | cons v vs ih =>
    simp only [List.length_cons, List.replicate_succ, List.map_cons]
    rw [ih]

/-- In the main branch, the classifier equals the pointwise class map. -/
lemma quantile_classify_main (a : List NpVal) (NQ : ℕ)
    (hne : a.isEmpty = false)
    (hpos : (a.filter fun v => vGt v 0).isEmpty = false)
    (hNQ : NQ ≠ 0)
    (hq : (quantilesOf a NQ).isEmpty = false) :
    quantile_classify a NQ = .ok (a.map (pointClass (quantilesOf a NQ) NQ)) := by
  rw [quantile_classify, if_neg (by simp [hne]), if_neg (by simp [hpos]),
    if_neg hNQ]
  dsimp only
  rw [if_neg (by simp [hq]), replicate_none_eq_map, maskWrite_map, maskWrite_map,
    maskWrite_map, foldl_maskWrite_map, maskWrite_map]
  rfl

lemma foldl_if_eq_init (m : ℕ → Bool) (c : ℕ → ℤ) :
    ∀ (L : List ℕ) (o : Option ℤ), (∀ i ∈ L, m i = false) →
      L.foldl (fun o i => if m i then some (c i) else o) o = o := by
  intro L
  induction L with
  | nil => intro o _; rfl
  | cons j L' ih =>
    intro o h
    have hj : m j = false := h j (List.mem_cons_self j L')
    rw [List.foldl_cons]
    simp only [hj, Bool.false_eq_true, if_false]
    exact ih o fun i hi => h i (List.mem_cons_of_mem j hi)

lemma foldl_if_result (m : ℕ → Bool) (c : ℕ → ℤ) :
    ∀ (L : List ℕ) (o : Option ℤ),
      (L.foldl (fun o i => if m i then some (c i) else o) o = o) ∨
      (∃ i ∈ L, m i = true ∧
        L.foldl (fun o i => if m i then some (c i) else o) o = some (c i)) := by
  intro L
  induction L with
  | nil => intro o; left; rfl
  | cons j L' ih =>
    intro o
    rw [List.foldl_cons]
    by_cases hj : m j = true
    · simp only [hj, if_true]
      rcases ih (some (c j)) with h | ⟨i, hi, hm, hres⟩
      · exact Or.inr ⟨j, List.mem_cons_self j L', hj, h⟩
      · exact Or.inr ⟨i, List.mem_cons_of_mem j hi, hm, hres⟩
    · simp only [Bool.not_eq_true] at hj
      simp only [hj, Bool.false_eq_true, if_false]
      rcases ih o with h | ⟨i, hi, hm, hres⟩
      · exact Or.inl h
      · exact Or.inr ⟨i, List.mem_cons_of_mem j hi, hm, hres⟩

lemma foldl_if_covered (m : ℕ → Bool) (c : ℕ → ℤ) :
    ∀ (L : List ℕ) (o : Option ℤ), (∃ i ∈ L, m i = true) →
      ∃ i ∈ L, m i = true ∧
        L.foldl (fun o i => if m i then some (c i) else o) o = some (c i) := by
  intro L
  induction L with
  | nil => intro o h; simp at h
  | cons j L' ih =>
    intro o h
    rw [List.foldl_cons]
    by_cases hj : m j = true
    · simp only [hj, if_true]
      rcases foldl_if_result m c L' (some (c j)) with hr | ⟨i, hi, hm, hres⟩
      · exact ⟨j, List.mem_cons_self j L', hj, hr⟩
      · exact ⟨i, List.mem_cons_of_mem j hi, hm, hres⟩
    · simp only [Bool.not_eq_true] at hj
      simp only [hj, Bool.false_eq_true, if_false]
      have h' : ∃ i ∈ L', m i = true := by
        rcases h with ⟨i, hi, hm⟩
        rcases List.mem_cons.mp hi with rfl | hi'
        · rw [hj] at hm; cases hm
        · exact ⟨i, hi', hm⟩
      rcases ih o h' with ⟨i, hi, hm, hres⟩
      exact ⟨i, List.mem_cons_of_mem j hi, hm, hres⟩

/-! Facts about the positive subset and the quantile breakpoints. -/

lemma positivesOf_pos (a : List NpVal) : ∀ y ∈ positivesOf a, 0 < y := by
  intro y hy
  simp only [positivesOf, List.mem_filterMap, List.mem_filter, id] at hy
  rcases hy with ⟨v, ⟨_, hgt⟩, hv⟩
  cases v with
  | none => cases hv
  | some x =>
    obtain rfl : x = y := by simpa using hv
    simpa [vGt] using hgt

lemma mem_positivesOf (a : List NpVal) (x : ℚ) (hx : some x ∈ a)
    (hpos : 0 < x) : x ∈ positivesOf a := by
  simp only [positivesOf, List.mem_filterMap, id]
  exact ⟨some x, List.mem_filter.mpr ⟨hx, by simp [vGt, hpos]⟩, rfl⟩

lemma sortedPositives_perm (a : List NpVal) :
    (sortedPositives a).Perm (positivesOf a) :=
  List.mergeSort_perm _ _

lemma sortedPositives_pos (a : List NpVal) : ∀ y ∈ sortedPositives a, 0 < y :=
  fun y hy => positivesOf_pos a y ((sortedPositives_perm a).mem_iff.mp hy)

lemma sortedPositives_ne_nil (a : List NpVal) (h : positivesOf a ≠ []) :
    sortedPositives a ≠ [] := by
  intro hnil
  apply h
  have := (sortedPositives_perm a).length_eq
  rw [hnil] at this
  exact List.length_eq_zero.mp this.symm

lemma headD_mem {α : Type} (l : List α) (d : α) (h : l ≠ []) : l.headD d ∈ l := by
  cases l with
  | nil => exact absurd rfl h
  | cons x xs => simp

lemma getD_mem {α : Type} (l : List α) (i : ℕ) (d : α) (h : i < l.length) :
    l.getD i d ∈ l := by
  rw [List.getD_eq_getElem l d h]
  exact List.getElem_mem h

lemma getLastD_mem {α : Type} (l : List α) (d : α) (h : l ≠ []) :
    l.getLastD d ∈ l := by
  rw [List.getLastD_eq_getLast?, List.getLast?_eq_getLast l h, Option.getD_some]
  exact List.getLast_mem h

lemma headD_eq_getD {α : Type} (l : List α) (d : α) (h : l ≠ []) :
    l.headD d = l.getD 0 d := by
  cases l with
  | nil => exact absurd rfl h
  | cons x xs => rfl

lemma getLastD_eq_getD {α : Type} (l : List α) (d : α) (h : l ≠ []) :
    l.getLastD d = l.getD (l.length - 1) d := by
  have hlt : l.length - 1 < l.length :=
    Nat.sub_lt (List.length_pos.mpr h) Nat.one_pos
  rw [List.getLastD_eq_getLast?, List.getLast?_eq_getLast l h, Option.getD_some,
    List.getLast_eq_getElem, List.getD_eq_getElem l d hlt]

lemma npQuantile1_pos (l : List ℚ) (f : ℚ) (hl : l ≠ [])
    (hall : ∀ x ∈ l, 0 < x) (hf0 : 0 ≤ f) (hf1 : f ≤ 1) :
    0 < npQuantile1 l f := by
  rw [npQuantile1]
  have hn1 : 1 ≤ l.length := List.length_pos.mpr hl
  have hn1q : (0 : ℚ) ≤ (l.length : ℚ) - 1 := by
    have : (1 : ℚ) ≤ (l.length : ℚ) := by exact_mod_cast hn1
    linarith
  have hh0 : 0 ≤ f * ((l.length : ℚ) - 1) := mul_nonneg hf0 hn1q
  have hh1 : f * ((l.length : ℚ) - 1) ≤ (l.length : ℚ) - 1 :=
    mul_le_of_le_one_left hn1q hf1
  have hile : ((⌊f * ((l.length : ℚ) - 1)⌋₊ : ℕ) : ℚ) ≤ f * ((l.length : ℚ) - 1) :=
    Nat.floor_le hh0
  have hlt : f * ((l.length : ℚ) - 1) < (⌊f * ((l.length : ℚ) - 1)⌋₊ : ℚ) + 1 :=
    Nat.lt_floor_add_one _
  have hin : ⌊f * ((l.length : ℚ) - 1)⌋₊ < l.length := by
    have hq : ((⌊f * ((l.length : ℚ) - 1)⌋₊ : ℕ) : ℚ) < (l.length : ℚ) := by
      linarith
    exact_mod_cast hq
  have hin2 : min (⌊f * ((l.length : ℚ) - 1)⌋₊ + 1) (l.length - 1) < l.length := by
    omega
  have hlo : 0 < l.getD ⌊f * ((l.length : ℚ) - 1)⌋₊ 0 :=
    hall _ (getD_mem l _ 0 hin)
  have hhi : 0 < l.getD (min (⌊f * ((l.length : ℚ) - 1)⌋₊ + 1) (l.length - 1)) 0 :=
    hall _ (getD_mem l _ 0 hin2)
  have hw0 : 0 ≤ f * ((l.length : ℚ) - 1) - (⌊f * ((l.length : ℚ) - 1)⌋₊ : ℚ) := by
    linarith
  have hw1 : f * ((l.length : ℚ) - 1) - (⌊f * ((l.length : ℚ) - 1)⌋₊ : ℚ) < 1 := by
    linarith
  nlinarith [mul_pos (by linarith :
      (0 : ℚ) < 1 - (f * ((l.length : ℚ) - 1) - (⌊f * ((l.length : ℚ) - 1)⌋₊ : ℚ)))
      hlo,
    mul_nonneg hw0 hhi.le]

lemma quantilesOf_length (a : List NpVal) (NQ : ℕ) :
    (quantilesOf a NQ).length = npArangeCount NQ := by
  rw [quantilesOf, List.length_map, qList, List.length_map, List.length_range]

lemma npArangeCount_five : npArangeCount 5 = 4 := by decide

lemma npArangeCount_three : npArangeCount 3 = 3 := by decide

lemma quantilesOf_pos (a : List NpVal) (NQ : ℕ) (hpos : positivesOf a ≠ [])
    (hcount : npArangeCount NQ ≤ NQ) :
    ∀ y ∈ quantilesOf a NQ, 0 < y := by
  intro y hy
  simp only [quantilesOf, List.mem_map] at hy
  rcases hy with ⟨f, hf, rfl⟩
  simp only [qList, List.mem_map] at hf
  rcases hf with ⟨i, hi, rfl⟩
  have hiNQ : i < npArangeCount NQ := List.mem_range.mp hi
  have hNQpos : 0 < NQ := by omega
  apply npQuantile1_pos
  · exact sortedPositives_ne_nil a hpos
  · exact sortedPositives_pos a
  · positivity
  · rw [div_le_one (by exact_mod_cast hNQpos)]
    have : i + 1 ≤ NQ := by omega
    exact_mod_cast this

/-- Witness for the universally quantified part of C6, at the single-sample
segment `[1]`. -/
theorem combined_modified_gaussian_witness :
    ([1] : List ℝ) ≠ [] ∧
    combined_modified_gaussian_per_grid [1] [0] 3600 100 5 =
      some ((segmentsOf [1] ([0] ++ [([1] : List ℝ).length])).map
        fun seg => (seg.map (combinedContribSpec ((3600 : ℝ) / (60 * 60)) 100 5)).sum) :=
  ⟨by simp,
    combined_modified_gaussian_spec_and_scenario3.1 [1] [0] 3600 100 5 (by simp)⟩

/-! Value-level behaviour of `pointClass`. -/

lemma pointClass_nan (Q : List ℚ) (NQ : ℕ) : pointClass Q NQ none = some 0 := by
  simp [pointClass, vIsNaN]

lemma pointClass_zero (Q : List ℚ) (NQ : ℕ) (hQ : ∀ y ∈ Q, 0 < y)
    (hQne : Q ≠ []) (hlen : NQ - 2 ≤ Q.length) :
    pointClass Q NQ (some 0) = some 0 := by
  have e1 : vEq (some (0 : ℚ)) 0 = true := by simp [vEq]
  have e2 : vGt (some (0 : ℚ)) 0 = false := by simp [vGt]
  have e3 : vGe (some (0 : ℚ)) (Q.getLastD 0) = false := by
    simp only [vGe, decide_eq_false_iff_not, not_le]
    exact hQ _ (getLastD_mem Q 0 hQne)
  simp only [pointClass, e1, e2, e3, Bool.false_and, Bool.false_eq_true, if_false,
    if_true, vIsNaN, Option.isNone_some]
  exact foldl_if_eq_init _ _ _ _ fun j hj => by
    have hjlt : j < Q.length := lt_of_lt_of_le (List.mem_range.mp hj) hlen
    have : 0 < Q.getD j 0 := hQ _ (getD_mem Q j 0 hjlt)
    simp only [vGe, Bool.and_eq_false_iff, decide_eq_false_iff_not, not_le]
    left
    exact this

lemma pointClass_neg (Q : List ℚ) (NQ : ℕ) (hQ : ∀ y ∈ Q, 0 < y)
    (hQne : Q ≠ []) (x : ℚ) (hx : x < 0) :
    pointClass Q NQ (some x) = none := by
  have e1 : vEq (some x) 0 = false := by
    simp only [vEq, decide_eq_false_iff_not]
    exact ne_of_lt hx
  have e2 : vGt (some x) 0 = false := by
    simp only [vGt, decide_eq_false_iff_not, not_lt]
    exact hx.le
  have e3 : vGe (some x) (Q.getLastD 0) = false := by
    simp only [vGe, decide_eq_false_iff_not, not_le]
    exact lt_trans hx (hQ _ (getLastD_mem Q 0 hQne))
  simp only [pointClass, e1, e2, e3, Bool.false_and, Bool.false_eq_true, if_false,
    vIsNaN, Option.isNone_some]
  exact foldl_if_eq_init _ _ _ _ fun j hj => by
    simp only [vGe, Bool.and_eq_false_iff, decide_eq_false_iff_not, not_le]
    left
    rcases lt_or_le j Q.length with hjl | hjl
    · exact lt_trans hx (hQ _ (getD_mem Q j 0 hjl))
    · rw [List.getD_eq_default _ _ hjl]
      exact hx

lemma pointClass_pos (Q : List ℚ) (NQ : ℕ) (hNQ : 2 ≤ NQ)
    (hQlen : Q.length = NQ - 1) (x : ℚ) (hx : 0 < x) :
    ∃ c : ℤ, pointClass Q NQ (some x) = some c ∧ 1 ≤ c ∧ c ≤ (NQ : ℤ) := by
  have hQne : Q ≠ [] := by
    intro h
    rw [h] at hQlen
    simp at hQlen
    omega
  have e1 : vEq (some x) 0 = false := by
    simp only [vEq, decide_eq_false_iff_not]
    exact ne_of_gt hx
  have e2 : vGt (some x) 0 = true := by simp [vGt, hx]
  have hclass : ∀ i ∈ List.range (NQ - 2), 1 ≤ (i : ℤ) + 2 ∧ (i : ℤ) + 2 ≤ (NQ : ℤ) := by
    intro i hi
    have := List.mem_range.mp hi
    omega
  rcases le_or_lt (Q.getLastD 0) x with htop | hnotop
  · -- x reaches the top breakpoint: the `>= quantiles[-1]` write hits, possibly
    -- overwritten by a middle band
    have e3 : vGe (some x) (Q.getLastD 0) = true := by
      simp only [vGe, decide_eq_true_eq]
      exact htop
    simp only [pointClass, e1, e2, e3, Bool.false_eq_true, if_false, if_true,
      vIsNaN, Option.isNone_some]
    rcases foldl_if_result
        (fun j => vGe (some x) (Q.getD j 0) && vLt (some x) (Q.getD (j + 1) 0))
        (fun j => (j : ℤ) + 2) (List.range (NQ - 2)) (some (NQ : ℤ)) with hr |
        ⟨i, hi, _, hr⟩
    · exact ⟨(NQ : ℤ), hr, by exact_mod_cast Nat.one_le_of_lt hNQ, le_refl _⟩
    · exact ⟨(i : ℤ) + 2, hr, (hclass i hi).1, (hclass i hi).2⟩
  · have e3 : vGe (some x) (Q.getLastD 0) = false := by
      simp only [vGe, decide_eq_false_iff_not, not_le]
      exact hnotop
    rcases lt_or_le x (Q.headD 0) with hband | hge
    · -- the band `0 < x < quantiles[0]` hits
      have e4 : vLt (some x) (Q.headD 0) = true := by
        simp only [vLt, decide_eq_true_eq]
        exact hband
      simp only [pointClass, e1, e2, e3, e4, Bool.and_self, Bool.false_eq_true,
        if_false, if_true, vIsNaN, Option.isNone_some]
      rcases foldl_if_result
          (fun j => vGe (some x) (Q.getD j 0) && vLt (some x) (Q.getD (j + 1) 0))
          (fun j => (j : ℤ) + 2) (List.range (NQ - 2)) (some 1) with hr |
          ⟨i, hi, _, hr⟩
      · exact ⟨1, hr, le_refl _, by exact_mod_cast Nat.one_le_of_lt hNQ⟩
      · exact ⟨(i : ℤ) + 2, hr, (hclass i hi).1, (hclass i hi).2⟩
    · -- `quantiles[0] <= x < quantiles[-1]`: a middle band must cover x
      have e4 : vLt (some x) (Q.headD 0) = false := by
        simp only [vLt, decide_eq_false_iff_not, not_lt]
        exact hge
      have hP0 : Q.getD 0 0 ≤ x := by
        rwa [headD_eq_getD Q 0 hQne] at hge
      have hPlast : ¬ (Q.getD (NQ - 2) 0 ≤ x) := by
        rw [not_le]
        have hidx : Q.length - 1 = NQ - 2 := by omega
        rw [← hidx, ← getLastD_eq_getD Q 0 hQne]
        exact hnotop
      set jmax := Nat.findGreatest (fun j => Q.getD j 0 ≤ x) (NQ - 2) with hjdef
      have hj1 : Q.getD jmax 0 ≤ x := by
        rw [hjdef]
        exact @Nat.findGreatest_spec 0 (fun j => Q.getD j 0 ≤ x) _ (NQ - 2)
          (Nat.zero_le _) hP0
      have hj2 : jmax ≤ NQ - 2 := by
        rw [hjdef]
        exact Nat.findGreatest_le _
      have hj3 : jmax ≠ NQ - 2 := by
        intro h
        rw [h] at hj1
        exact hPlast hj1
      have hjlt : jmax < NQ - 2 := lt_of_le_of_ne hj2 hj3
      have hj4 : ¬ (Q.getD (jmax + 1) 0 ≤ x) := by
        refine @Nat.findGreatest_is_greatest (jmax + 1) (fun j => Q.getD j 0 ≤ x)
          _ (NQ - 2) ?_ (by omega)
        rw [← hjdef]
        exact Nat.lt_succ_self jmax
      have hmask : (vGe (some x) (Q.getD jmax 0) &&
          vLt (some x) (Q.getD (jmax + 1) 0)) = true := by
        simp only [vGe, vLt, Bool.and_eq_true, decide_eq_true_eq]
        exact ⟨hj1, not_le.mp hj4⟩
      simp only [pointClass, e1, e2, e3, e4, Bool.and_false, Bool.false_eq_true,
        if_false, vIsNaN, Option.isNone_some]
      rcases foldl_if_covered
          (fun j => vGe (some x) (Q.getD j 0) && vLt (some x) (Q.getD (j + 1) 0))
          (fun j => (j : ℤ) + 2) (List.range (NQ - 2)) none
          ⟨jmax, List.mem_range.mpr hjlt, hmask⟩ with ⟨i, hi, _, hr⟩
      exact ⟨(i : ℤ) + 2, hr, (hclass i hi).1, (hclass i hi).2⟩

lemma positivesOf_ne_nil (a : List NpVal)
    (h : (a.filter fun v => vGt v 0) ≠ []) : positivesOf a ≠ [] := by
  obtain ⟨v, hv⟩ := List.exists_mem_of_ne_nil _ h
  obtain ⟨hva, hvgt⟩ := List.mem_filter.mp hv
  cases v with
  | none => simp [vGt] at hvgt
  | some x =>
    have hx : 0 < x := by simpa [vGt] using hvgt
    exact List.ne_nil_of_mem (mem_positivesOf a x hva hx)

/-! Concrete evaluation of the classifier on `[-1, 1]` with 5 classes. -/

lemma cex_positives : positivesOf [some (-1), some 1] = [1] := by
  norm_num [positivesOf, vGt, List.filter, List.filterMap]

lemma cex_sorted : sortedPositives [some (-1), some 1] = [1] := by
  rw [sortedPositives, cex_positives, List.mergeSort_singleton]

lemma cex_quantiles : quantilesOf [some (-1), some 1] 5 = [1, 1, 1, 1] := by
  rw [quantilesOf, cex_sorted, qList, npArangeCount_five]
  norm_num [npQuantile1, List.range_succ]

lemma cex_eval :
    quantile_classify [some (-1), some 1] 5 = Except.ok [none, some 5] := by
  have hmain := quantile_classify_main [some (-1), some 1] 5 rfl
    (by norm_num [vGt, List.filter]) (by norm_num) (by rw [cex_quantiles]; rfl)
  rw [hmain, cex_quantiles]
  norm_num [pointClass, vEq, vGe, vGt, vLt, vIsNaN, List.range_succ]

lemma getD_ofFn {α : Type} {n : ℕ} (f : Fin n → α) (i : Fin n) (d : α) :
    (List.ofFn f).getD i.val d = f i := by
  rw [List.getD_eq_getElem _ _ (by simp [i.isLt]), List.getElem_ofFn]

lemma sortedPositives_eq_of_perm (A B : List NpVal) (h : A.Perm B) :
    sortedPositives A = sortedPositives B := by
  have hperm : (sortedPositives A).Perm (sortedPositives B) :=
    ((List.mergeSort_perm _ _).trans ((h.filter _).filterMap id)).trans
      (List.mergeSort_perm _ _).symm
  have hsA : (sortedPositives A).Sorted (· ≤ ·) := by
    have := List.sorted_mergeSort' (positivesOf A)
    simpa [sortedPositives] using this
  have hsB : (sortedPositives B).Sorted (· ≤ ·) := by
    have := List.sorted_mergeSort' (positivesOf B)
    simpa [sortedPositives] using this
  exact List.eq_of_perm_of_sorted hperm hsA hsB

/-- C8: `quantile_classify` is order-independent — permuting the input array
permutes the output identically.  Uninitialized output cells are the
distinguished `none` value, which is carried along by the permutation. -/
theorem quantile_classify_equivariant (n NQ : ℕ) (a : Fin n → NpVal)
    (σ : Equiv.Perm (Fin n)) :
    quantile_classify (List.ofFn fun i => a (σ i)) NQ =
      (quantile_classify (List.ofFn a) NQ).map
        (fun l => List.ofFn fun i => l.getD (σ i) none) := by
  have hperm : (List.ofFn fun i => a (σ i)).Perm (List.ofFn a) :=
    σ.ofFn_comp_perm a
  by_cases hn : n = 0
  · subst hn
    rw [quantile_classify, if_pos (by simp), quantile_classify, if_pos (by simp)]
    rfl
  · have hempA : (List.ofFn a).isEmpty = false := by
      simp [List.isEmpty_iff, List.ofFn_eq_nil_iff, hn]
    have hempA' : (List.ofFn fun i => a (σ i)).isEmpty = false := by
      simp [List.isEmpty_iff, List.ofFn_eq_nil_iff, hn]
    have hfl : ((List.ofFn fun i => a (σ i)).filter fun v => vGt v 0).length =
        ((List.ofFn a).filter fun v => vGt v 0).length :=
      (hperm.filter _).length_eq
    by_cases hflt : ((List.ofFn a).filter fun v => vGt v 0).isEmpty
    · have hflt' : ((List.ofFn fun i => a (σ i)).filter fun v => vGt v 0).isEmpty :=
        by
        rw [List.isEmpty_iff, ← List.length_eq_zero, hfl, List.length_eq_zero,
          ← List.isEmpty_iff]
        exact hflt
      rw [quantile_classify, if_neg (by simp [hempA']), if_pos hflt',
        quantile_classify, if_neg (by simp [hempA]), if_pos hflt]
      simp only [Except.map, List.length_ofFn]
      congr 1
      have hfun : (fun i : Fin n =>
          (List.replicate n (some (0 : ℤ))).getD (σ i).val none) =
          fun _ : Fin n => some (0 : ℤ) := by
        funext i
        rw [List.getD_eq_getElem _ _ (by simp [(σ i).isLt])]
        simp
      rw [hfun, List.ofFn_const]
    · have hfltA : ((List.ofFn a).filter fun v => vGt v 0).isEmpty = false :=
        Bool.not_eq_true _ ▸ hflt
      have hfltA' :
          ((List.ofFn fun i => a (σ i)).filter fun v => vGt v 0).isEmpty = false :=
        by
        rw [List.isEmpty_eq_false, ← List.length_pos, hfl, List.length_pos,
          ← List.isEmpty_eq_false]
        exact hfltA
      by_cases hNQ0 : NQ = 0
      · rw [quantile_classify, if_neg (by simp [hempA']), if_neg (by simp [hfltA']),
          if_pos hNQ0, quantile_classify, if_neg (by simp [hempA]),
          if_neg (by simp [hfltA]), if_pos hNQ0]
        rfl
      · have hQeq : quantilesOf (List.ofFn fun i => a (σ i)) NQ =
            quantilesOf (List.ofFn a) NQ := by
          rw [quantilesOf, quantilesOf, sortedPositives_eq_of_perm _ _ hperm]
        by_cases hq : (quantilesOf (List.ofFn a) NQ).isEmpty
        · rw [quantile_classify,
            if_neg (show ¬ ((List.ofFn fun i => a (σ i)).isEmpty = true) by
              simp [hempA']),
            if_neg (show ¬ (((List.ofFn fun i => a (σ i)).filter
                fun v => vGt v 0).isEmpty = true) by simp [hfltA']),
            if_neg hNQ0, quantile_classify,
            if_neg (show ¬ ((List.ofFn a).isEmpty = true) by simp [hempA]),
            if_neg (show ¬ (((List.ofFn a).filter
                fun v => vGt v 0).isEmpty = true) by simp [hfltA]),
            if_neg hNQ0]
          dsimp only
          rw [if_pos (show (quantilesOf (List.ofFn fun i => a (σ i)) NQ).isEmpty =
              true by rw [hQeq]; exact hq),
            if_pos hq]
          rfl
        · have hqA : (quantilesOf (List.ofFn a) NQ).isEmpty = false :=
            Bool.not_eq_true _ ▸ hq
          have hqA' : (quantilesOf (List.ofFn fun i => a (σ i)) NQ).isEmpty = false :=
            by rw [hQeq]; exact hqA
          have hmainA := quantile_classify_main (List.ofFn a) NQ hempA hfltA hNQ0 hqA
          have hmainA' := quantile_classify_main (List.ofFn fun i => a (σ i)) NQ
            hempA' hfltA' hNQ0 hqA'
          rw [hmainA', hmainA, hQeq]
          simp only [Except.map]
          congr 1
          rw [List.map_ofFn, List.map_ofFn]
          congr 1
          funext i
          rw [getD_ofFn]
          rfl

/-! At class count 3 the binary64 `np.arange` overshoots to 3 breakpoints,
the last at fraction `1.0`: the middle-band loop `range(NQ - 2)` then covers
only one of the two middle bands and a band of positive scores is left
uninitialized.  The model reproduces this program behaviour. -/

lemma overshoot_positives :
    positivesOf [some 1, some 2, some 3, some 4] = [1, 2, 3, 4] := by decide

unseal List.merge List.mergeSort in
lemma overshoot_sorted :
    sortedPositives [some 1, some 2, some 3, some 4] = [1, 2, 3, 4] := by
  rw [sortedPositives, overshoot_positives]
  decide

lemma overshoot_quantiles :
    quantilesOf [some 1, some 2, some 3, some 4] 3 = [2, 3, 4] := by
  rw [quantilesOf, overshoot_sorted, qList, npArangeCount_three]
  norm_num [npQuantile1, List.range_succ]

/-- With 3 classes on scores `[1, 2, 3, 4]` the positive score `3` falls in
the unwritten band `[quantiles[1], quantiles[2])` and keeps its uninitialized
contents. -/
lemma overshoot_hole :
    quantile_classify [some 1, some 2, some 3, some 4] 3 =
      Except.ok [some 1, some 2, none, some 3] := by
  have hmain := quantile_classify_main [some 1, some 2, some 3, some 4] 3 rfl
    (by norm_num [vGt, List.filter]) (by norm_num)
    (by rw [overshoot_quantiles]; rfl)
  rw [hmain, overshoot_quantiles]
  norm_num [pointClass, vEq, vGe, vGt, vLt, vIsNaN, List.range_succ]

/-- C3 counterexample: on the score array `[-1, 1]` with 5 classes, the
position holding the negative score `-1` is not assigned class `0` — it is
never written at all (uninitialized `np.empty` cell, modelled `none`), so the
claim "class 0 for every zero-or-negative position, every position defined"
fails. -/
theorem quantile_classify_negative_claim_false :
    ¬ (∀ (l : List (Option ℤ)),
        quantile_classify [some (-1), some 1] 5 = Except.ok l →
        ∀ (i : ℕ) (x : ℚ),
          ([some (-1), some 1] : List NpVal).getD i none = some x → x ≤ 0 →
          l.getD i none = some 0) := by
  intro h
  have h0 := h [none, some 5] cex_eval 0 (-1) rfl (by norm_num)
  simp at h0

/-- C3 (amended): at the default class count 5 — the only one the repository
uses, and one where the binary64 `np.arange` provably yields the regular
`NQ - 1 = 4` breakpoints — `quantile_classify` assigns class `0` to every
zero-valued and every NaN position, and a defined class in `[1, 5]` to every
positive position; a position holding a negative value is left uninitialized
(`none`) whenever some positive value is present.  (At class counts whose
breakpoint array overshoots to `NQ` entries — 3, 6, 7, … — even a band of
positive scores is left uninitialized; see `overshoot_hole`.) -/
theorem quantile_classify_class_assignment (a : List NpVal)
    (l : List (Option ℤ))
    (hok : quantile_classify a 5 = Except.ok l) :
    l.length = a.length ∧
    ∀ (i : ℕ) (hi : i < a.length),
      (a.get ⟨i, hi⟩ = none → l.getD i none = some 0) ∧
      (a.get ⟨i, hi⟩ = some 0 → l.getD i none = some 0) ∧
      (∀ x : ℚ, a.get ⟨i, hi⟩ = some x → 0 < x →
        ∃ c : ℤ, l.getD i none = some c ∧ 1 ≤ c ∧ c ≤ ((5 : ℕ) : ℤ)) ∧
      (∀ x : ℚ, a.get ⟨i, hi⟩ = some x → x < 0 → positivesOf a ≠ [] →
        l.getD i none = none) := by
  by_cases hemp : a.isEmpty
  · have ha : a = [] := List.isEmpty_iff.mp hemp
    subst ha
    rw [quantile_classify] at hok
    simp only [List.isEmpty_nil, if_true] at hok
    have hl : l = [] := (Except.ok.inj hok).symm
    subst hl
    exact ⟨rfl, fun i hi => absurd hi (by simp)⟩
  · by_cases hflt : (a.filter fun v => vGt v 0).isEmpty
    · rw [quantile_classify, if_neg hemp, if_pos hflt] at hok
      have hl : l = List.replicate a.length (some 0) := (Except.ok.inj hok).symm
      refine ⟨by simp [hl], ?_⟩
      intro i hi
      have hget : l.getD i none = some 0 := by
        rw [hl, List.getD_eq_getElem _ _ (by simpa using hi)]
        simp
      refine ⟨fun _ => hget, fun _ => hget, ?_, ?_⟩
      · intro x hx hxpos
        exfalso
        have hmem : some x ∈ a := by
          rw [← hx]
          exact a.get_mem i hi
        have : some x ∈ a.filter fun v => vGt v 0 :=
          List.mem_filter.mpr ⟨hmem, by simp [vGt, hxpos]⟩
        rw [List.isEmpty_iff.mp hflt] at this
        cases this
      · intro x _ _ hposne
        exfalso
        apply hposne
        simp [positivesOf, List.isEmpty_iff.mp hflt]
    · have hqlen : (quantilesOf a 5).length = 5 - 1 := by
        rw [quantilesOf_length, npArangeCount_five]
      have hqne : quantilesOf a 5 ≠ [] := by
        intro h
        rw [h] at hqlen
        simp at hqlen
      have hmain := quantile_classify_main a 5
        (Bool.not_eq_true _ ▸ hemp) (Bool.not_eq_true _ ▸ hflt) (by omega)
        (by simpa [List.isEmpty_iff] using hqne)
      rw [hmain] at hok
      have hl : l = a.map (pointClass (quantilesOf a 5) 5) :=
        (Except.ok.inj hok).symm
      have hpos' : positivesOf a ≠ [] := by
        apply positivesOf_ne_nil
        simpa [List.isEmpty_iff] using hflt
      have hQpos : ∀ y ∈ quantilesOf a 5, 0 < y :=
        quantilesOf_pos a 5 hpos' (by decide)
      refine ⟨by simp [hl], ?_⟩
      intro i hi
      have hpt : l.getD i none = pointClass (quantilesOf a 5) 5 (a.get ⟨i, hi⟩) := by
        rw [hl, List.getD_eq_getElem _ _ (by simpa using hi), List.getElem_map]
        congr 1
      rw [hpt]
      refine ⟨?_, ?_, ?_, ?_⟩
      · intro hx
        rw [hx]
        exact pointClass_nan _ _
      · intro hx
        rw [hx]
        exact pointClass_zero _ _ hQpos hqne (by omega)
      · intro x hx hxpos
        rw [hx]
        exact pointClass_pos _ _ (by omega) hqlen x hxpos
      · intro x hx hxneg _
        rw [hx]
        exact pointClass_neg _ _ hQpos hqne x hxneg

/-- Witness for C3's amended theorem at the concrete input `[-1, 1]` with
5 classes. -/
theorem quantile_classify_class_assignment_witness :
    quantile_classify [some (-1), some 1] 5 = Except.ok [none, some 5] ∧
    (([none, some 5] : List (Option ℤ)).length =
        ([some (-1), some 1] : List NpVal).length ∧
      ∀ (i : ℕ) (hi : i < ([some (-1), some 1] : List NpVal).length),
        (([some (-1), some 1] : List NpVal).get ⟨i, hi⟩ = none →
          ([none, some 5] : List (Option ℤ)).getD i none = some 0) ∧
        (([some (-1), some 1] : List NpVal).get ⟨i, hi⟩ = some 0 →
          ([none, some 5] : List (Option ℤ)).getD i none = some 0) ∧
        (∀ x : ℚ, ([some (-1), some 1] : List NpVal).get ⟨i, hi⟩ = some x →
          0 < x → ∃ c : ℤ, ([none, some 5] : List (Option ℤ)).getD i none = some c ∧
            1 ≤ c ∧ c ≤ ((5 : ℕ) : ℤ)) ∧
        (∀ x : ℚ, ([some (-1), some 1] : List NpVal).get ⟨i, hi⟩ = some x →
          x < 0 → positivesOf [some (-1), some 1] ≠ [] →
          ([none, some 5] : List (Option ℤ)).getD i none = none)) :=
  ⟨cex_eval,
    quantile_classify_class_assignment [some (-1), some 1]
      [none, some 5] cex_eval⟩

/-- C4 counterexample: a gravity (`modified_gaussian`) category config with
`sensitivity = 0` passes both configuration validators — validation does not
reject non-positive sensitivity, so such a config does reach the gaussian
decay layer. -/
theorem gravity_zero_sensitivity_accepted :
    validate_heatmap_config HeatmapType.modified_gaussian
      ⟨[("supermarket", ⟨some 1, some 0, some 20, none, none⟩)], none⟩ =
      Except.ok () := rfl

/-- C4 (amended): configuration validation of a gravity config checks only
that the `weight`, `sensitivity` and `max_traveltime` fields are present;
every integer `sensitivity` — zero and negative values included — is
accepted. -/
theorem gravity_any_sensitivity_accepted (w s m : ℤ) (name : String) :
    validate_heatmap_config HeatmapType.modified_gaussian
      ⟨[(name, ⟨some w, some s, some m, none, none⟩)], none⟩ =
      Except.ok () := rfl

/-- C9: every `HeatmapSettings` whose `heatmap_type` is `cumulative` is
rejected by `heatmap_config_schema` (no validator class exists for it),
regardless of the contents of `heatmap_config`; each of the other four types
admits a config that passes validation. -/
theorem cumulative_always_rejected :
    (∀ cfg : HeatmapConfigRaw,
      validate_heatmap_config HeatmapType.cumulative cfg =
        Except.error "Validation for type cumulative not found.") ∧
    validate_heatmap_config HeatmapType.modified_gaussian
      ⟨[("atm", ⟨some 1, some 250000, some 20, none, none⟩)], none⟩ =
      Except.ok () ∧
    validate_heatmap_config HeatmapType.combined_cumulative_modified_gaussian
      ⟨[("atm", ⟨some 1, some 250000, some 20, some 5, none⟩)], none⟩ =
      Except.ok () ∧
    validate_heatmap_config HeatmapType.closest_average
      ⟨[("atm", ⟨some 1, none, some 20, none, some 1⟩)], none⟩ =
      Except.ok () ∧
    validate_heatmap_config HeatmapType.connectivity ⟨[], some 20⟩ =
      Except.ok () :=
  ⟨fun _ => rfl, rfl, rfl, rfl, rfl⟩

lemma to_np_arrays_ok (cols : List (String × List NpEntry))
    (h : ∀ kv ∈ cols, kv.2 ≠ ([] : List NpEntry)) :
    ∃ arrays, to_np_arrays cols = Except.ok arrays := by
  induction cols with
  | nil => exact ⟨[], rfl⟩
  | cons p rest ih =>
    obtain ⟨arrays, harrays⟩ := ih fun kv hkv => h kv (List.mem_cons_of_mem p hkv)
    have hp : p.2 ≠ [] := h p (List.mem_cons_self p rest)
    cases hcol : p.2 with
    | nil => exact absurd hcol hp
    | cons v vs =>
      cases v with
      | str s => exact ⟨_, by rw [to_np_arrays, hcol, to_np_array, harrays]⟩
      | num z => exact ⟨_, by rw [to_np_arrays, hcol, to_np_array, harrays]⟩

/-- C10: storing a matrix under key `(mode, profile, bulk_id)` writes one
file at `base_path/mode/profile/bulk_id.npz`, first removing any prior file
at that exact key; files at other keys are unaffected, and repeating the
store is an idempotent overwrite. -/
theorem save_traveltime_matrix_overwrite (bulk_id : ℤ)
    (cols : List (String × List NpEntry)) (mode profile base_path : String)
    (fs : CacheFS) (h : ∀ kv ∈ cols, kv.2 ≠ ([] : List NpEntry)) :
    ∃ fs' : CacheFS,
      save_traveltime_matrix bulk_id cols mode profile base_path fs =
        Except.ok fs' ∧
      (∃ m, fs'.files (base_path ++ "/" ++ mode ++ "/" ++ profile ++ "/" ++
        toString bulk_id ++ ".npz") = some m) ∧
      (∀ p, p ≠ base_path ++ "/" ++ mode ++ "/" ++ profile ++ "/" ++
        toString bulk_id ++ ".npz" → fs'.files p = fs.files p) ∧
      save_traveltime_matrix bulk_id cols mode profile base_path fs' =
        Except.ok fs' := by
  obtain ⟨arrays, harrays⟩ := to_np_arrays_ok cols h
  have hpath : os_path_join (os_path_join (os_path_join base_path mode) profile)
      (toString bulk_id ++ ".npz") =
      base_path ++ "/" ++ mode ++ "/" ++ profile ++ "/" ++
        toString bulk_id ++ ".npz" := by
    simp [os_path_join, String.append_assoc]
  refine ⟨⟨if os_path_join (os_path_join base_path mode) profile ∈ fs.dirs
      then fs.dirs
      else os_path_join (os_path_join base_path mode) profile :: fs.dirs,
      fun p => if p = os_path_join (os_path_join (os_path_join base_path mode)
          profile) (toString bulk_id ++ ".npz")
        then some arrays
        else delete_file fs.files (os_path_join (os_path_join
          (os_path_join base_path mode) profile)
          (toString bulk_id ++ ".npz")) p⟩, ?_, ?_, ?_, ?_⟩
  · rw [save_traveltime_matrix, harrays]
  · refine ⟨arrays, ?_⟩
    rw [hpath]
    simp
  · intro p hp
    rw [← hpath] at hp
    simp only [if_neg hp, delete_file, if_neg hp]
  · rw [save_traveltime_matrix, harrays]
    dsimp only
    have hdirmem : os_path_join (os_path_join base_path mode) profile ∈
        (if os_path_join (os_path_join base_path mode) profile ∈ fs.dirs
          then fs.dirs
          else os_path_join (os_path_join base_path mode) profile :: fs.dirs) := by
      by_cases hd : os_path_join (os_path_join base_path mode) profile ∈ fs.dirs
      · rw [if_pos hd]; exact hd
      · rw [if_neg hd]; exact List.mem_cons_self _ _
    congr 1
    congr 1
    · exact if_pos hdirmem
    · funext p
      by_cases hp : p = os_path_join (os_path_join (os_path_join base_path mode)
          profile) (toString bulk_id ++ ".npz")
      · rw [if_pos hp, if_pos hp]
      · rw [if_neg hp, if_neg hp]
        simp [delete_file, hp]

/-- Witness for C10 at a concrete store: key `(walking, standard, 7)` with a
numeric and a string column, on an empty file system. -/
theorem save_traveltime_matrix_overwrite_witness :
    (∀ kv ∈ ([("grid_ids", [NpEntry.num 1]),
        ("geometry", [NpEntry.str "poly"])] : List (String × List NpEntry)),
      kv.2 ≠ ([] : List NpEntry)) ∧
    ∃ fs' : CacheFS,
      save_traveltime_matrix 7
        [("grid_ids", [NpEntry.num 1]), ("geometry", [NpEntry.str "poly"])]
        "walking" "standard" "cache" ⟨[], fun _ => none⟩ = Except.ok fs' ∧
      (∃ m, fs'.files ("cache" ++ "/" ++ "walking" ++ "/" ++ "standard" ++
        "/" ++ toString (7 : ℤ) ++ ".npz") = some m) ∧
      (∀ p, p ≠ "cache" ++ "/" ++ "walking" ++ "/" ++ "standard" ++ "/" ++
        toString (7 : ℤ) ++ ".npz" →
        fs'.files p = (⟨[], fun _ => none⟩ : CacheFS).files p) ∧
      save_traveltime_matrix 7
        [("grid_ids", [NpEntry.num 1]), ("geometry", [NpEntry.str "poly"])]
        "walking" "standard" "cache" fs' = Except.ok fs' :=
  ⟨by decide,
    save_traveltime_matrix_overwrite 7
      [("grid_ids", [NpEntry.num 1]), ("geometry", [NpEntry.str "poly"])]
      "walking" "standard" "cache" ⟨[], fun _ => none⟩ (by decide)⟩

end Goat
